import Mathlib

/-! Shallow embedding of the memoizing cache layer of the Logger repository
(`src/cogs/utils/cache.py`): the bounded LRU ordered map `LRUDict` and the
`cache` decorator machinery (`_resolve_key`, `invalidate`,
`invalidate_containing`, the call `wrapper`, `_prepare_coro`, `_wrap_value`).

The ordered dictionary underlying `LRUDict` is modelled as an association
list in recency order: the head is the oldest (least recently used) entry,
the tail end is the most recently used, matching `collections.OrderedDict`
where `next(iter(self))` yields the oldest key and `move_to_end` moves a
key to the newest position.
-/

namespace LoggerCache

/-- Lookup in an ordered association list, first match wins; models
`OrderedDict.__getitem__` returning `None` in place of `KeyError`. -/
def odLookup {K V : Type} [DecidableEq K] : List (K × V) → K → Option V
  | [], _ => none
  | p :: rest, k => if p.1 = k then some p.2 else odLookup rest k

/-- Models `OrderedDict.__setitem__`: overwrite in place when the key is
present (keeping its position), append at the newest end otherwise. -/
def odSet {K V : Type} [DecidableEq K] (l : List (K × V)) (k : K) (v : V) :
    List (K × V) :=
  match odLookup l k with
  | some _ => l.map fun p => if p.1 = k then (k, v) else p
  | none => l ++ [(k, v)]

/-- Models `OrderedDict.move_to_end(key)`: the entries for `key` move to the
newest end, all other entries keep their relative order. -/
def odMoveToEnd {K V : Type} [DecidableEq K] (l : List (K × V)) (k : K) :
    List (K × V) :=
  (l.filter fun p => decide (p.1 ≠ k)) ++ (l.filter fun p => decide (p.1 = k))

/-- Models `OrderedDict.__delitem__` under the dict invariant of unique
keys: every entry for `k` is removed. -/
def odDel {K V : Type} [DecidableEq K] (l : List (K × V)) (k : K) :
    List (K × V) :=
  l.filter fun p => decide (p.1 ≠ k)

/-- Models the eviction loop of `LRUDict.__setitem__`:
`while len(self) > self.max_len: del self[next(iter(self))]`, i.e. drop the
oldest entry while the length exceeds `max_len`. -/
def evict {K V : Type} (max_len : Nat) : List (K × V) → List (K × V)
  | [] => []
  | p :: rest =>
      if max_len < (p :: rest).length then evict max_len rest else p :: rest

/-- The state of an `LRUDict`: its `max_len` bound and its entries in
recency order (oldest first). -/
structure LRUDict (K V : Type) where
  max_len : Nat
  entries : List (K × V)

/-- The state produced by a successful `LRUDict.__init__` with no initial
items: the given bound and no entries. -/
def LRUDict.mkEmpty {K V : Type} (n : Nat) : LRUDict K V :=
  { max_len := n, entries := [] }

/-- Models `LRUDict.__init__(max_len)`: raises `ValueError` when
`max_len <= 0`, otherwise yields the empty dict with that bound. -/
def LRUDict.construct (K V : Type) (max_len : Int) :
    Except Unit (LRUDict K V) :=
  if max_len ≤ 0 then Except.error () else Except.ok (LRUDict.mkEmpty max_len.toNat)

/-- Models `LRUDict.__setitem__`: `super().__setitem__(key, value)`, then
`super().move_to_end(key)`, then the eviction loop. -/
def LRUDict.set {K V : Type} [DecidableEq K] (d : LRUDict K V) (k : K) (v : V) :
    LRUDict K V :=
  { max_len := d.max_len,
    entries := evict d.max_len (odMoveToEnd (odSet d.entries k v) k) }

/-- Models `LRUDict.__getitem__`: `KeyError` (here `none`) when absent; on
success return the value together with the state after `move_to_end`. -/
def LRUDict.get {K V : Type} [DecidableEq K] (d : LRUDict K V) (k : K) :
    Option (V × LRUDict K V) :=
  match odLookup d.entries k with
  | none => none
  | some v =>
      some (v, { max_len := d.max_len, entries := odMoveToEnd d.entries k })

/-- Models `OrderedDict.clear()` as used by `invalidate()` with no
arguments. -/
def LRUDict.clear {K V : Type} (d : LRUDict K V) : LRUDict K V :=
  { max_len := d.max_len, entries := [] }

/-- Folding a sequence of `__setitem__` calls over a dict, in order. -/
def LRUDict.setAll {K V : Type} [DecidableEq K] (d : LRUDict K V)
    (ps : List (K × V)) : LRUDict K V :=
  ps.foldl (fun d p => d.set p.1 p.2) d

/-- Models `_resolve_key(args, kwargs)` of the `cache` decorator. The
Python `repr` of each argument is not computable inside the embedding, so
positional arguments arrive as their `_true_repr` strings and keyword
arguments as pairs of `repr(k)` and `repr(v)` strings; the function then
builds `funcId :: argReprs`, appends the keyword parts unless
`ignore_kwargs`, and joins everything with `":"` exactly as the source
does. -/
def resolve_key (funcId : String) (ignore_kwargs : Bool)
    (argReprs : List String) (kwargReprs : List (String × String)) : String :=
  let key := funcId :: argReprs
  let key :=
    if ignore_kwargs then key
    else key ++ kwargReprs.foldr (fun p acc => p.1 :: p.2 :: acc) []
  String.intercalate ":" key

/-- Models `invalidate(*args, **kwargs)`: with no arguments clear the whole
cache and report success, otherwise resolve the key and delete that entry,
reporting whether it was present (`del` raising `KeyError` is the `none`
branch). -/
def invalidate {V : Type} (funcId : String) (ignore_kwargs : Bool)
    (c : LRUDict String V) (argReprs : List String)
    (kwargReprs : List (String × String)) : Bool × LRUDict String V :=
  if argReprs = [] ∧ kwargReprs = [] then (true, c.clear)
  else
    let key := resolve_key funcId ignore_kwargs argReprs kwargReprs
    match odLookup c.entries key with
    | some _ => (true, { max_len := c.max_len, entries := odDel c.entries key })
    | none => (false, c)

/-- Does `needle` occur as a leading segment of `l`? Helper for the Python
substring test. -/
def matchesAt (needle : List Char) (l : List Char) : Bool :=
  match needle, l with
  | [], _ => true
  | _ :: _, [] => false
  | a :: as, b :: bs => a = b && matchesAt as bs

/-- Does `needle` occur as a contiguous segment of `l`? -/
def occursIn (needle : List Char) : List Char → Bool
  | [] => needle.isEmpty
  | b :: bs => matchesAt needle (b :: bs) || occursIn needle bs

/-- Models the Python substring test `needle in hay` on strings. -/
def strContains (needle hay : String) : Bool :=
  occursIn needle.toList hay.toList

/-- Models `invalidate_containing(key)`: collect every stored key that
contains `key` as a literal substring, then delete each collected key. -/
def invalidate_containing {V : Type} (c : LRUDict String V) (key : String) :
    LRUDict String V :=
  let to_remove := (c.entries.map Prod.fst).filter fun k => strContains key k
  { max_len := c.max_len,
    entries := to_remove.foldl (fun l k => odDel l k) c.entries }

/-- Models the `wrapper` call path for a synchronous wrapped function whose
side effects are threaded through a state `σ`: resolve the key, try the
cache (`__getitem__` also refreshing recency on a hit), and on a miss
(`KeyError`) invoke the function once, store its result and return it. -/
def wrapper_sync {A σ V : Type} (rk : A → String) (f : A → σ → V × σ)
    (c : LRUDict String V) (s : σ) (a : A) : V × LRUDict String V × σ :=
  match LRUDict.get c (rk a) with
  | some (v, c2) => (v, c2, s)
  | none =>
      let r := f a s
      (r.1, c.set (rk a) r.1, r.2)

/-- Models the `wrapper` call path for a synchronous wrapped function that
may raise: on a miss a raised error propagates before `_cache[key] = value`
runs, so the cache is left untouched. -/
def wrapper_sync_exc {A E V : Type} (rk : A → String) (f : A → Except E V)
    (c : LRUDict String V) (a : A) : Except E V × LRUDict String V :=
  match LRUDict.get c (rk a) with
  | some (v, c2) => (Except.ok v, c2)
  | none =>
      match f a with
      | Except.error e => (Except.error e, c)
      | Except.ok v => (Except.ok v, c.set (rk a) v)

/-- An awaitable as produced by the `wrapper` for an asynchronous wrapped
function: either `_wrap_value(value)` made on a cache hit, or
`_prepare_coro(coro, cache, key)` made on a miss, holding the call
argument (the not-yet-run coroutine) and the resolved key. -/
inductive Awaitable (A V : Type) where
  | wrap_value : V → Awaitable A V
  | prepare_coro : A → String → Awaitable A V

/-- Driving an awaitable to completion. the coroutine made by `_wrap_value` returns
the stored value immediately and touches nothing. The coroutine made by
`_prepare_coro` awaits the underlying computation (whose side effects on `σ`
happen now); on success it stores the value under the key and yields it,
on failure the error propagates and the store step never runs. -/
def run_awaitable {A E V σ : Type} (f : A → σ → Except E V × σ) :
    Awaitable A V → LRUDict String V → σ → Except E V × LRUDict String V × σ
  | Awaitable.wrap_value v, c, s => (Except.ok v, c, s)
  | Awaitable.prepare_coro a key, c, s =>
      match f a s with
      | (Except.ok v, s2) => (Except.ok v, c.set key v, s2)
      | (Except.error e, s2) => (Except.error e, c, s2)

/-- Models the `wrapper` call path for an asynchronous wrapped function: on
a hit return `_wrap_value(value)` (after the recency refresh of `__getitem__`),
on a miss return `_prepare_coro(func(*args), _cache, key)` with the cache
not yet modified. -/
def wrapper_async {A V : Type} (rk : A → String) (c : LRUDict String V)
    (a : A) : Awaitable A V × LRUDict String V :=
  match LRUDict.get c (rk a) with
  | some (v, c2) => (Awaitable.wrap_value v, c2)
  | none => (Awaitable.prepare_coro a (rk a), c)

/-- Models `_cache = LRUDict(max_len)` performed by the `cache` decorator
at decoration time: the decorator fails exactly when `LRUDict.__init__`
does. -/
def cache_setup (V : Type) (max_len : Int) : Except Unit (LRUDict String V) :=
  LRUDict.construct String V max_len

/-- The counting function of the end-to-end scenario of the spec: `f(x)`
increments the shared call counter and returns `x * 2`. -/
def countingF (x : Nat) (counter : Nat) : Nat × Nat :=
  (x * 2, counter + 1)

/-- Key resolution for the scenario function, one positional argument and
no keyword arguments, under the module-qualified name `tests.f`. -/
def countingKey (x : Nat) : String :=
  resolve_key "tests.f" false [toString x] []

/-- Scenario state after `f(1)` on the fresh cache with `max_len = 2`:
returned value, cache, counter. -/
def scenarioStep1 : Nat × LRUDict String Nat × Nat :=
  wrapper_sync countingKey countingF (LRUDict.mkEmpty 2) 0 1

/-- Scenario state after the second `f(1)`. -/
def scenarioStep2 : Nat × LRUDict String Nat × Nat :=
  wrapper_sync countingKey countingF scenarioStep1.2.1 scenarioStep1.2.2 1

/-- Scenario state after `f(2)`. -/
def scenarioStep3 : Nat × LRUDict String Nat × Nat :=
  wrapper_sync countingKey countingF scenarioStep2.2.1 scenarioStep2.2.2 2

/-- Scenario state after `f(3)`. -/
def scenarioStep4 : Nat × LRUDict String Nat × Nat :=
  wrapper_sync countingKey countingF scenarioStep3.2.1 scenarioStep3.2.2 3

/-- Lookup misses exactly when no entry carries the key. -/
theorem odLookup_eq_none_iff {K V : Type} [DecidableEq K] (l : List (K × V))
    (k : K) : odLookup l k = none ↔ ∀ p ∈ l, p.1 ≠ k := by
  induction l with
  | nil => simp [odLookup]
  | cons p rest ih =>
      by_cases h : p.1 = k
      · simp [odLookup, h]
      · simp [odLookup, h, ih]

/-- Membership extraction for a successful lookup. -/
theorem odLookup_mem_of_eq_some {K V : Type} [DecidableEq K]
    {l : List (K × V)} {k : K} {w : V} (h : odLookup l k = some w) :
    (k, w) ∈ l := by
  induction l with
  | nil => simp [odLookup] at h
  | cons p rest ih =>
      simp only [odLookup] at h
      by_cases hp : p.1 = k
      · rw [if_pos hp] at h
        have h2 : p.2 = w := by injection h
        have h3 : (k, w) = p := by rw [← hp, ← h2]
        rw [h3]
        exact List.mem_cons_self p rest
      · rw [if_neg hp] at h
        exact List.mem_cons_of_mem p (ih h)

/-- Lookup succeeds with value `v` as soon as some entry carries the key
and every entry carrying the key carries the value `v`. -/
theorem odLookup_eq_some_of_all {K V : Type} [DecidableEq K]
    {l : List (K × V)} {k : K} {v : V} (hex : ∃ p ∈ l, p.1 = k)
    (hall : ∀ p ∈ l, p.1 = k → p.2 = v) : odLookup l k = some v := by
  induction l with
  | nil => simp at hex
  | cons p rest ih =>
      by_cases hp : p.1 = k
      · simp only [odLookup]
        rw [if_pos hp, hall p (List.mem_cons_self p rest) hp]
      · simp only [odLookup]
        rw [if_neg hp]
        apply ih
        · obtain ⟨q, hq, hqk⟩ := hex
          rcases List.mem_cons.mp hq with h1 | h1
          · rw [h1] at hqk
            exact absurd hqk hp
          · exact ⟨q, h1, hqk⟩
        · intro q hq hqk
          exact hall q (List.mem_cons_of_mem p hq) hqk

/-- Under the unique-keys invariant, lookup returns the value of the unique
entry carrying the key. -/
theorem odLookup_eq_some_of_nodup {K V : Type} [DecidableEq K]
    {l : List (K × V)} (hnd : (l.map Prod.fst).Nodup) {k : K} {v : V}
    (hmem : (k, v) ∈ l) : odLookup l k = some v := by
  induction l with
  | nil => simp at hmem
  | cons p rest ih =>
      rw [List.map_cons, List.nodup_cons] at hnd
      rcases List.mem_cons.mp hmem with h1 | h1
      · simp only [odLookup]
        rw [← h1]
        simp
      · have hp : p.1 ≠ k := by
          intro hk
          apply hnd.1
          rw [hk]
          exact List.mem_map.mpr ⟨(k, v), h1, rfl⟩
        simp only [odLookup]
        rw [if_neg hp]
        exact ih hnd.2 h1

/-- The eviction loop never leaves more than `max_len` entries. -/
theorem evict_length_le {K V : Type} (n : Nat) (l : List (K × V)) :
    (evict n l).length ≤ n := by
  induction l with
  | nil => simp [evict]
  | cons p rest ih =>
      simp only [evict]
      by_cases h : n < (p :: rest).length
      · rw [if_pos h]
        exact ih
      · rw [if_neg h]
        omega

/-- The eviction loop keeps exactly the newest `max_len` entries. -/
theorem evict_eq_drop {K V : Type} (n : Nat) (l : List (K × V)) :
    evict n l = l.drop (l.length - n) := by
  induction l with
  | nil => simp [evict]
  | cons p rest ih =>
      simp only [evict]
      by_cases h : n < (p :: rest).length
      · rw [if_pos h, ih]
        have hl : (p :: rest).length = rest.length + 1 := List.length_cons p rest
        have h2 : (p :: rest).length - n = (rest.length - n) + 1 := by omega
        rw [h2, List.drop_succ_cons]
      · rw [if_neg h]
        have hl : (p :: rest).length = rest.length + 1 := List.length_cons p rest
        have h2 : (p :: rest).length - n = 0 := by omega
        rw [h2, List.drop_zero]

/-- Eviction only removes entries. -/
theorem evict_subset {K V : Type} (n : Nat) (l : List (K × V)) :
    evict n l ⊆ l := by
  rw [evict_eq_drop]
  exact List.drop_subset _ _

/-- A nonempty suffix always contributes an element to any drop that keeps
at least one element. -/
theorem exists_mem_drop_append {α : Type} (A B : List α) (s : Nat)
    (hs : s < A.length + B.length) (hB : B ≠ []) :
    ∃ x, x ∈ (A ++ B).drop s ∧ x ∈ B := by
  by_cases h : s ≤ A.length
  · rw [List.drop_append_of_le_length h]
    obtain ⟨b, B2, hBeq⟩ := List.exists_cons_of_ne_nil hB
    refine ⟨b, ?_, ?_⟩
    · rw [hBeq]
      exact List.mem_append.mpr (Or.inr (List.mem_cons_self _ _))
    · rw [hBeq]
      exact List.mem_cons_self _ _
  · have h2 : s = A.length + (s - A.length) := by omega
    rw [h2, List.drop_append]
    have h3 : s - A.length < B.length := by omega
    have hne : B.drop (s - A.length) ≠ [] := by
      intro hnil
      have hlen := congrArg List.length hnil
      rw [List.length_drop] at hlen
      simp at hlen
      omega
    obtain ⟨c, C, hC⟩ := List.exists_cons_of_ne_nil hne
    refine ⟨c, ?_, ?_⟩
    · rw [hC]
      exact List.mem_cons_self _ _
    · apply List.drop_subset (s - A.length) B
      rw [hC]
      exact List.mem_cons_self _ _

/-- After `odSet`, every entry carrying the key carries the new value. -/
theorem odSet_key_all {K V : Type} [DecidableEq K] (l : List (K × V))
    (k : K) (v : V) : ∀ p ∈ odSet l k v, p.1 = k → p.2 = v := by
  intro p hp hpk
  simp only [odSet] at hp
  split at hp
  · obtain ⟨q, hq, hfq⟩ := List.mem_map.mp hp
    by_cases hqk : q.1 = k
    · rw [if_pos hqk] at hfq
      rw [← hfq]
    · rw [if_neg hqk] at hfq
      rw [← hfq] at hpk
      exact absurd hpk hqk
  case _ heq =>
    rcases List.mem_append.mp hp with h1 | h1
    · exact absurd hpk ((odLookup_eq_none_iff l k).mp heq p h1)
    · simp at h1
      rw [h1]

/-- After `odSet`, some entry carries the key. -/
theorem odSet_key_ex {K V : Type} [DecidableEq K] (l : List (K × V))
    (k : K) (v : V) : ∃ p ∈ odSet l k v, p.1 = k := by
  simp only [odSet]
  split
  case _ w heq =>
    refine ⟨(k, v), ?_, rfl⟩
    exact List.mem_map.mpr ⟨(k, w), odLookup_mem_of_eq_some heq, by simp⟩
  case _ heq =>
    exact ⟨(k, v), List.mem_append.mpr (Or.inr (by simp)), rfl⟩

/-- Lookup after eviction on a list whose tail block consists of copies of
`(k, v)` and whose front block avoids `k` yields `v`, provided at least one
entry may survive. -/
theorem odLookup_evict_append {K V : Type} [DecidableEq K] {n : Nat}
    (hn : 1 ≤ n) {k : K} {v : V} (A B : List (K × V)) (hBne : B ≠ [])
    (hA : ∀ p ∈ A, p.1 ≠ k) (hBall : ∀ p ∈ B, p = (k, v)) :
    odLookup (evict n (A ++ B)) k = some v := by
  rw [evict_eq_drop]
  have hBlen : 0 < B.length := List.length_pos.mpr hBne
  have hL : (A ++ B).length = A.length + B.length := List.length_append A B
  have hs : (A ++ B).length - n < A.length + B.length := by omega
  obtain ⟨x, hx1, hx2⟩ := exists_mem_drop_append A B ((A ++ B).length - n) hs hBne
  apply odLookup_eq_some_of_all
  · refine ⟨x, hx1, ?_⟩
    rw [hBall x hx2]
  · intro p hp hpk
    rcases List.mem_append.mp (List.drop_subset _ _ hp) with h1 | h1
    · exact absurd hpk (hA p h1)
    · rw [hBall p h1]

/-- Immediately after `__setitem__`, the written key is present with the
written value: the key is moved to the newest position before the eviction
loop drops oldest entries, so with `max_len >= 1` it survives. -/
theorem odLookup_set_self {K V : Type} [DecidableEq K] (d : LRUDict K V)
    (k : K) (v : V) (h : 1 ≤ d.max_len) :
    odLookup (d.set k v).entries k = some v := by
  show odLookup
      (evict d.max_len (odMoveToEnd (odSet d.entries k v) k)) k = some v
  have hall_set := odSet_key_all d.entries k v
  obtain ⟨q, hq, hqk⟩ := odSet_key_ex d.entries k v
  simp only [odMoveToEnd]
  apply odLookup_evict_append h
  · intro hnil
    have hBmem : q ∈ (odSet d.entries k v).filter fun p => decide (p.1 = k) :=
      List.mem_filter.mpr ⟨hq, by simp [hqk]⟩
    rw [hnil] at hBmem
    simp at hBmem
  · intro p hp
    have h2 := (List.mem_filter.mp hp).2
    simp at h2
    exact h2
  · intro p hp
    obtain ⟨hmem, hpk⟩ := List.mem_filter.mp hp
    have hpk2 : p.1 = k := by simpa using hpk
    have hp2 := hall_set p hmem hpk2
    obtain ⟨a, b⟩ := p
    simp only at hpk2 hp2
    rw [hpk2, hp2]

/-- Writing a key that is not yet stored appends it at the newest end and
then runs the eviction loop. -/
theorem set_fresh {K V : Type} [DecidableEq K] (d : LRUDict K V) (k : K)
    (v : V) (h : odLookup d.entries k = none) :
    (d.set k v).entries = evict d.max_len (d.entries ++ [(k, v)]) := by
  have hall := (odLookup_eq_none_iff d.entries k).mp h
  have h1 : odSet d.entries k v = d.entries ++ [(k, v)] := by
    simp only [odSet, h]
  have h2 : odMoveToEnd (d.entries ++ [(k, v)]) k = d.entries ++ [(k, v)] := by
    simp only [odMoveToEnd, List.filter_append]
    have hA : (d.entries.filter fun p => decide (p.1 ≠ k)) = d.entries :=
      List.filter_eq_self.mpr fun p hp => by simp [hall p hp]
    have hB : (d.entries.filter fun p => decide (p.1 = k)) = [] :=
      List.filter_eq_nil_iff.mpr fun p hp => by simp [hall p hp]
    simp [hA, hB]
    exact fun a b hab => hall (a, b) hab
  show evict d.max_len (odMoveToEnd (odSet d.entries k v) k)
      = evict d.max_len (d.entries ++ [(k, v)])
  rw [h1, h2]

/-- `__setitem__` keeps the `max_len` bound. -/
theorem set_max_len {K V : Type} [DecidableEq K] (d : LRUDict K V) (k : K)
    (v : V) : (d.set k v).max_len = d.max_len := rfl

/-- A sequence of `__setitem__` calls keeps the `max_len` bound. -/
theorem setAll_max_len {K V : Type} [DecidableEq K] (d : LRUDict K V)
    (ps : List (K × V)) : (d.setAll ps).max_len = d.max_len := by
  induction ps generalizing d with
  | nil => rfl
  | cons p rest ih =>
      show ((d.set p.1 p.2).setAll rest).max_len = d.max_len
      rw [ih (d.set p.1 p.2), set_max_len]

/-- Splitting the last write off a sequence of writes. -/
theorem setAll_append_single {K V : Type} [DecidableEq K] (d : LRUDict K V)
    (ps : List (K × V)) (q : K × V) :
    d.setAll (ps ++ [q]) = (d.setAll ps).set q.1 q.2 := by
  simp [LRUDict.setAll, List.foldl_append]

/-- After any single `__setitem__`, at most `max_len` entries remain. -/
theorem set_entries_length_le {K V : Type} [DecidableEq K] (d : LRUDict K V)
    (k : K) (v : V) : ((d.set k v).entries).length ≤ d.max_len :=
  evict_length_le _ _

/-- Arithmetic core of the sliding-window characterisation: appending one
element to the kept window and evicting matches keeping the window of the
extended list. -/
theorem drop_append_single {α : Type} (l : List α) (q : α) (n : Nat) :
    (l.drop (l.length - n) ++ [q]).drop
        ((l.drop (l.length - n) ++ [q]).length - n)
      = (l ++ [q]).drop ((l ++ [q]).length - n) := by
  by_cases hn : n = 0
  · subst hn
    have h1 : ((l.drop (l.length - 0) ++ [q]).length - 0)
        = (l.drop (l.length - 0) ++ [q]).length := by omega
    rw [h1, List.drop_eq_nil_of_le (le_refl _)]
    have h2 : ((l ++ [q]).length - 0) = (l ++ [q]).length := by omega
    rw [h2, List.drop_eq_nil_of_le (le_refl _)]
  · by_cases hm : l.length < n
    · have h1 : l.length - n = 0 := by omega
      rw [h1, List.drop_zero]
    · have hn1 : 1 ≤ n := by omega
      have hm1 : n ≤ l.length := by omega
      have hlenA : (l.drop (l.length - n)).length = n := by
        rw [List.length_drop]
        omega
      have h1 : (l.drop (l.length - n) ++ [q]).length = n + 1 := by
        rw [List.length_append, hlenA]
        rfl
      rw [h1]
      have h2 : n + 1 - n = 1 := by omega
      rw [h2]
      have h3 : (l ++ [q]).length - n = (l.length - n) + 1 := by
        simp
        omega
      rw [h3]
      have h4 : (l.length - n) + 1 ≤ l.length := by omega
      rw [List.drop_append_of_le_length h4]
      have h5 : (1 : Nat) ≤ (l.drop (l.length - n)).length := by omega
      rw [List.drop_append_of_le_length h5]
      rw [List.drop_drop]

/-- Sliding-window characterisation of distinct-key insertion: writing
pairwise-distinct keys into an empty `LRUDict` keeps exactly the newest
`max_len` pairs, in order. -/
theorem setAll_entries_of_nodup {K V : Type} [DecidableEq K] (n : Nat)
    (ps : List (K × V)) (hnd : (ps.map Prod.fst).Nodup) :
    ((LRUDict.mkEmpty n (K := K) (V := V)).setAll ps).entries
      = ps.drop (ps.length - n) := by
  induction ps using List.reverseRecOn with
  | nil => simp [LRUDict.setAll, LRUDict.mkEmpty]
  | append_singleton l q ih =>
      rw [List.map_append, List.nodup_append] at hnd
      have hndl := hnd.1
      have hqnotin : q.1 ∉ l.map Prod.fst := by
        intro hin
        exact hnd.2.2 hin (by simp)
      have hent := ih hndl
      rw [setAll_append_single]
      have hfresh :
          odLookup ((LRUDict.mkEmpty n (K := K) (V := V)).setAll l).entries q.1
            = none := by
        rw [hent, odLookup_eq_none_iff]
        intro p hp hpk
        apply hqnotin
        rw [← hpk]
        exact List.mem_map.mpr ⟨p, List.drop_subset _ _ hp, rfl⟩
      rw [set_fresh _ _ _ hfresh]
      have hml : ((LRUDict.mkEmpty n (K := K) (V := V)).setAll l).max_len = n := by
        rw [setAll_max_len]
        rfl
      rw [hml, hent, evict_eq_drop]
      simp only [Prod.mk.eta]
      exact drop_append_single l q n

/-- Deleting a key makes it absent. -/
theorem odLookup_odDel_self {K V : Type} [DecidableEq K] (l : List (K × V))
    (k : K) : odLookup (odDel l k) k = none := by
  rw [odLookup_eq_none_iff]
  intro p hp
  have h2 := (List.mem_filter.mp hp).2
  simpa using h2

/-- Deleting a list of keys one after the other filters all of them out. -/
theorem foldl_odDel_eq_filter {K V : Type} [DecidableEq K] (ks : List K)
    (l : List (K × V)) :
    ks.foldl (fun l k => odDel l k) l
      = l.filter fun p => decide (p.1 ∉ ks) := by
  induction ks generalizing l with
  | nil => simp
  | cons k rest ih =>
      show rest.foldl (fun l k => odDel l k) (odDel l k)
          = l.filter fun p => decide (p.1 ∉ k :: rest)
      rw [ih]
      simp only [odDel, List.filter_filter]
      apply List.filter_congr
      intro p hp
      by_cases h1 : p.1 = k
      · simp [h1]
      · by_cases h2 : p.1 ∈ rest
        · simp [h1, h2]
        · simp [h1, h2]

/-- `invalidate_containing` keeps exactly the entries whose key does not
contain the probe string, in order, with their values. -/
theorem invalidate_containing_entries {V : Type} (c : LRUDict String V)
    (s : String) :
    (invalidate_containing c s).entries
      = c.entries.filter fun p => !(strContains s p.1) := by
  show ((c.entries.map Prod.fst).filter fun k => strContains s k).foldl
      (fun l k => odDel l k) c.entries
      = c.entries.filter fun p => !(strContains s p.1)
  rw [foldl_odDel_eq_filter]
  apply List.filter_congr
  intro p hp
  by_cases h : strContains s p.1
  · have hmem : p.1 ∈ (c.entries.map Prod.fst).filter fun k => strContains s k :=
      List.mem_filter.mpr ⟨List.mem_map.mpr ⟨p, hp, rfl⟩, h⟩
    simp [hmem, h]
  · have hmem : p.1 ∉ (c.entries.map Prod.fst).filter fun k => strContains s k := by
      intro hin
      exact h ((List.mem_filter.mp hin).2)
    simp [hmem, h]

/-- Moving the head key to the end when it occurs nowhere else. -/
theorem odMoveToEnd_cons_of_not_mem {K V : Type} [DecidableEq K] (k : K)
    (v : V) (t : List (K × V)) (h : ∀ p ∈ t, p.1 ≠ k) :
    odMoveToEnd ((k, v) :: t) k = t ++ [(k, v)] := by
  simp only [odMoveToEnd]
  have hA : List.filter (fun p => decide (p.1 ≠ k)) ((k, v) :: t) = t := by
    rw [List.filter_cons_of_neg (by simp)]
    exact List.filter_eq_self.mpr fun p hp => by simp [h p hp]
  have hB : List.filter (fun p => decide (p.1 = k)) ((k, v) :: t) = [(k, v)] := by
    rw [List.filter_cons_of_pos (by simp)]
    rw [List.filter_eq_nil_iff.mpr fun p hp => by simp [h p hp]]
  rw [hA, hB]

/-- Any run of `__setitem__` calls preserves the capacity bound. -/
theorem setAll_entries_length_le {K V : Type} [DecidableEq K]
    (d : LRUDict K V) (ps : List (K × V)) (h : d.entries.length ≤ d.max_len) :
    ((d.setAll ps).entries).length ≤ d.max_len := by
  induction ps generalizing d with
  | nil => exact h
  | cons p rest ih =>
      show (((d.set p.1 p.2).setAll rest).entries).length ≤ d.max_len
      have h2 := ih (d.set p.1 p.2)
        (by rw [set_max_len]; exact set_entries_length_le d p.1 p.2)
      rw [set_max_len] at h2
      exact h2

/-- C2: for every `LRUDict` constructed with `max_len = c > 0` and every
sequence of `__setitem__` operations with arbitrary keys and values, after
each operation (i.e. after every prefix of the sequence) the number of
stored entries is at most `c`. -/
theorem c2_capacity_invariant {K V : Type} [DecidableEq K] (c : Nat)
    (hc : 0 < c) (ops : List (K × V)) (i : Nat) :
    (((LRUDict.mkEmpty c (K := K) (V := V)).setAll (ops.take i)).entries).length
      ≤ c := by
  have h := setAll_entries_length_le (LRUDict.mkEmpty c (K := K) (V := V))
    (ops.take i) (by simp [LRUDict.mkEmpty])
  exact h

/-- Witness for C2 at capacity 2 and a concrete three-write sequence. -/
theorem c2_capacity_invariant_witness :
    0 < 2
    ∧ (((LRUDict.mkEmpty 2 (K := Nat) (V := Nat)).setAll
        ([(1, 10), (2, 20), (3, 30)].take 3)).entries).length ≤ 2 :=
  ⟨by decide, c2_capacity_invariant 2 (by decide) [(1, 10), (2, 20), (3, 30)] 3⟩

/-- C9: constructing the bounded map (`LRUDict.__init__`, and hence the
statement `_cache = LRUDict(max_len)` of the `cache` decorator) with `max_len <= 0` fails
with the configuration error, and construction with any positive `max_len`
succeeds, yielding an empty map with that capacity. -/
theorem c9_construction (K V : Type) (m : Int) :
    (m ≤ 0 →
        LRUDict.construct K V m = Except.error ()
        ∧ cache_setup V m = Except.error ())
    ∧ (0 < m →
        LRUDict.construct K V m = Except.ok (LRUDict.mkEmpty m.toNat)
        ∧ (LRUDict.mkEmpty m.toNat (K := K) (V := V)).entries = []
        ∧ ((LRUDict.mkEmpty m.toNat (K := K) (V := V)).max_len : Int) = m
        ∧ cache_setup V m = Except.ok (LRUDict.mkEmpty m.toNat)) := by
  constructor
  · intro h
    constructor
    · simp [LRUDict.construct, h]
    · simp [cache_setup, LRUDict.construct, h]
  · intro h
    have h2 : ¬(m ≤ 0) := by omega
    refine ⟨?_, rfl, ?_, ?_⟩
    · simp [LRUDict.construct, h2]
    · show ((m.toNat : Int)) = m
      omega
    · simp [cache_setup, LRUDict.construct, h2]

/-- Witness for C9 at `max_len = -1` (rejected) and `max_len = 5`
(accepted, empty, capacity 5). -/
theorem c9_construction_witness :
    ((-1 : Int) ≤ 0 ∧ LRUDict.construct Nat Nat (-1) = Except.error ())
    ∧ ((0 : Int) < 5
        ∧ LRUDict.construct Nat Nat 5 = Except.ok (LRUDict.mkEmpty 5)
        ∧ cache_setup Nat 5 = Except.ok (LRUDict.mkEmpty 5)) := by
  have h1 := c9_construction Nat Nat (-1)
  have h2 := c9_construction Nat Nat 5
  exact ⟨⟨by decide, (h1.1 (by decide)).1⟩,
    ⟨by decide, (h2.2 (by decide)).1, (h2.2 (by decide)).2.2.2⟩⟩

/-- C10: immediately after `__setitem__(k, v)` completes on any `LRUDict`
state with `max_len >= 1` (including `max_len = 1`), key `k` is present
and maps to `v`: the key is moved to the newest position before the
eviction loop removes oldest entries, so it is never the victim. -/
theorem c10_inserted_key_present {K V : Type} [DecidableEq K]
    (d : LRUDict K V) (k : K) (v : V) (h : 1 ≤ d.max_len) :
    odLookup (d.set k v).entries k = some v :=
  odLookup_set_self d k v h

/-- Witness for C10 at `max_len = 1` on an already-full dict. -/
theorem c10_inserted_key_present_witness :
    1 ≤ ({ max_len := 1, entries := [("a", 1)] } : LRUDict String Nat).max_len
    ∧ odLookup
        (({ max_len := 1, entries := [("a", 1)] } : LRUDict String Nat).set
          "b" 2).entries "b" = some 2 :=
  ⟨by decide,
    c10_inserted_key_present
      { max_len := 1, entries := [("a", 1)] } "b" 2 (by decide)⟩

/-- C3: for every capacity `N >= 1` and `N + 1` pairwise-distinct keys
inserted in order into an empty `LRUDict` with no intervening reads, after
the final insert the first key is absent and each later key is present
with its inserted value. -/
theorem c3_eviction_order {K V : Type} [DecidableEq K] (N : Nat)
    (hN : 1 ≤ N) (k1 : K) (v1 : V) (rest : List (K × V))
    (hlen : rest.length = N)
    (hnd : (((k1, v1) :: rest).map Prod.fst).Nodup) :
    odLookup
        ((LRUDict.mkEmpty N (K := K) (V := V)).setAll
          ((k1, v1) :: rest)).entries k1 = none
    ∧ ∀ p ∈ rest,
        odLookup
          ((LRUDict.mkEmpty N (K := K) (V := V)).setAll
            ((k1, v1) :: rest)).entries p.1 = some p.2 := by
  have hent := setAll_entries_of_nodup N ((k1, v1) :: rest) hnd
  have hlen2 : ((k1, v1) :: rest).length - N = 1 := by
    rw [List.length_cons]
    omega
  rw [hlen2] at hent
  have hdrop : ((k1, v1) :: rest).drop 1 = rest := rfl
  rw [hdrop] at hent
  rw [List.map_cons, List.nodup_cons] at hnd
  constructor
  · rw [hent, odLookup_eq_none_iff]
    intro p hp hpk
    apply hnd.1
    rw [← hpk]
    exact List.mem_map.mpr ⟨p, hp, rfl⟩
  · intro p hp
    rw [hent]
    exact odLookup_eq_some_of_nodup hnd.2 hp

/-- Witness for C3 with capacity 2 and keys "a", "b", "c": "a" is evicted,
"b" and "c" stay. -/
theorem c3_eviction_order_witness :
    (1 : Nat) ≤ 2
    ∧ odLookup
        ((LRUDict.mkEmpty 2 (K := String) (V := Nat)).setAll
          [("a", 1), ("b", 2), ("c", 3)]).entries "a" = none
    ∧ odLookup
        ((LRUDict.mkEmpty 2 (K := String) (V := Nat)).setAll
          [("a", 1), ("b", 2), ("c", 3)]).entries "b" = some 2
    ∧ odLookup
        ((LRUDict.mkEmpty 2 (K := String) (V := Nat)).setAll
          [("a", 1), ("b", 2), ("c", 3)]).entries "c" = some 3 := by
  have h := c3_eviction_order 2 (by decide) "a" 1 [("b", 2), ("c", 3)]
    (by decide) (by decide)
  exact ⟨by decide, h.1, h.2 ("b", 2) (by simp), h.2 ("c", 3) (by simp)⟩

/-- C4: with capacity `N >= 2`, after inserting distinct keys `k1..kN` in
order into an empty `LRUDict`, reading `k1` via `__getitem__`, and then
inserting a fresh distinct key, `k1` remains present and `k2` (now the
oldest) is the evicted key, while all other keys stay present. The
capacity is `rest.length + 2` so the dict is exactly full before the last
insert. -/
theorem c4_read_refreshes_recency {K V : Type} [DecidableEq K] (k1 : K)
    (v1 : V) (k2 : K) (v2 : V) (rest : List (K × V)) (kN : K) (vN : V)
    (hnd : (((k1, v1) :: (k2, v2) :: rest).map Prod.fst).Nodup)
    (hfresh : kN ∉ ((k1, v1) :: (k2, v2) :: rest).map Prod.fst) :
    ∃ d1,
      ((LRUDict.mkEmpty (rest.length + 2) (K := K) (V := V)).setAll
          ((k1, v1) :: (k2, v2) :: rest)).get k1 = some (v1, d1)
      ∧ odLookup (d1.set kN vN).entries k1 = some v1
      ∧ odLookup (d1.set kN vN).entries k2 = none
      ∧ (∀ p ∈ rest, odLookup (d1.set kN vN).entries p.1 = some p.2)
      ∧ odLookup (d1.set kN vN).entries kN = some vN := by
  have hent := setAll_entries_of_nodup (rest.length + 2)
    ((k1, v1) :: (k2, v2) :: rest) hnd
  have hz : ((k1, v1) :: (k2, v2) :: rest).length - (rest.length + 2) = 0 := by
    simp
  rw [hz, List.drop_zero] at hent
  set d0 := (LRUDict.mkEmpty (rest.length + 2) (K := K) (V := V)).setAll
      ((k1, v1) :: (k2, v2) :: rest) with hd0
  rw [List.map_cons, List.map_cons, List.nodup_cons, List.nodup_cons] at hnd
  obtain ⟨h1, h2, h3⟩ := hnd
  simp only [List.mem_cons, not_or] at h1
  obtain ⟨h12, h1r⟩ := h1
  simp only [List.map_cons, List.mem_cons, not_or] at hfresh
  obtain ⟨hN1, hN2, hNr⟩ := hfresh
  have hl : odLookup d0.entries k1 = some v1 := by
    rw [hent]
    simp [odLookup]
  have hget : d0.get k1
      = some (v1, ⟨d0.max_len, odMoveToEnd d0.entries k1⟩) := by
    simp only [LRUDict.get, hl]
  have hml : d0.max_len = rest.length + 2 := by
    rw [hd0, setAll_max_len]
    rfl
  have hmv : odMoveToEnd d0.entries k1 = ((k2, v2) :: rest) ++ [(k1, v1)] := by
    rw [hent]
    apply odMoveToEnd_cons_of_not_mem
    intro p hp hpk
    rcases List.mem_cons.mp hp with h | h
    · rw [h] at hpk
      exact h12 hpk.symm
    · apply h1r
      rw [← hpk]
      exact List.mem_map.mpr ⟨p, h, rfl⟩
  have hfr : odLookup
      ((⟨d0.max_len, odMoveToEnd d0.entries k1⟩ : LRUDict K V).entries) kN
        = none := by
    show odLookup (odMoveToEnd d0.entries k1) kN = none
    rw [hmv, odLookup_eq_none_iff]
    intro p hp hpk
    rcases List.mem_append.mp hp with h | h
    · rcases List.mem_cons.mp h with h4 | h4
      · rw [h4] at hpk
        exact hN2 hpk.symm
      · apply hNr
        rw [← hpk]
        exact List.mem_map.mpr ⟨p, h4, rfl⟩
    · simp at h
      rw [h] at hpk
      exact hN1 hpk.symm
  have hev : ((⟨d0.max_len, odMoveToEnd d0.entries k1⟩ : LRUDict K V).set
      kN vN).entries = (rest ++ [(k1, v1)]) ++ [(kN, vN)] := by
    rw [set_fresh _ _ _ hfr]
    show evict d0.max_len ((odMoveToEnd d0.entries k1) ++ [(kN, vN)]) = _
    rw [hmv, hml, evict_eq_drop]
    have hL : ((((k2, v2) :: rest) ++ [(k1, v1)]) ++ [(kN, vN)]).length
        = rest.length + 3 := by simp
    rw [hL]
    have hi : rest.length + 3 - (rest.length + 2) = 1 := by omega
    rw [hi]
    simp only [List.cons_append]
    rfl
  have hndL2 : (((rest ++ [(k1, v1)]) ++ [(kN, vN)]).map Prod.fst).Nodup := by
    simp only [List.map_append]
    rw [List.nodup_append]
    refine ⟨?_, List.nodup_singleton _, ?_⟩
    · rw [List.nodup_append]
      refine ⟨h3, List.nodup_singleton _, ?_⟩
      intro a ha hb
      simp at hb
      rw [hb] at ha
      exact h1r ha
    · intro a ha hb
      simp at hb
      rw [hb] at ha
      rcases List.mem_append.mp ha with h | h
      · exact hNr h
      · simp at h
        exact hN1 h
  refine ⟨⟨d0.max_len, odMoveToEnd d0.entries k1⟩, hget, ?_, ?_, ?_, ?_⟩
  · rw [hev]
    apply odLookup_eq_some_of_nodup hndL2
    exact List.mem_append.mpr (Or.inl (List.mem_append.mpr (Or.inr (by simp))))
  · rw [hev, odLookup_eq_none_iff]
    intro p hp hpk
    rcases List.mem_append.mp hp with h | h
    · rcases List.mem_append.mp h with h4 | h4
      · exact h2 (List.mem_map.mpr ⟨p, h4, hpk⟩)
      · simp at h4
        rw [h4] at hpk
        exact h12 hpk
    · simp at h
      rw [h] at hpk
      exact hN2 hpk
  · intro p hp
    rw [hev]
    apply odLookup_eq_some_of_nodup hndL2
    exact List.mem_append.mpr (Or.inl (List.mem_append.mpr (Or.inl hp)))
  · rw [hev]
    apply odLookup_eq_some_of_nodup hndL2
    exact List.mem_append.mpr (Or.inr (by simp))

/-- Witness for C4 with capacity 2: insert "a" then "b", read "a", insert
"c"; "a" survives, "b" is evicted, "c" is present. -/
theorem c4_read_refreshes_recency_witness :
    ((LRUDict.mkEmpty 2 (K := String) (V := Nat)).setAll
        [("a", 1), ("b", 2)]).get "a"
      = some (1, { max_len := 2, entries := [("b", 2), ("a", 1)] })
    ∧ odLookup
        (({ max_len := 2, entries := [("b", 2), ("a", 1)] } :
          LRUDict String Nat).set "c" 3).entries "a" = some 1
    ∧ odLookup
        (({ max_len := 2, entries := [("b", 2), ("a", 1)] } :
          LRUDict String Nat).set "c" 3).entries "b" = none
    ∧ odLookup
        (({ max_len := 2, entries := [("b", 2), ("a", 1)] } :
          LRUDict String Nat).set "c" 3).entries "c" = some 3 := by
  obtain ⟨d1, hget, hk1, hk2, _hrest, hkN⟩ :=
    c4_read_refreshes_recency "a" 1 "b" 2 [] "c" 3 (by decide) (by decide)
  have hc : ((LRUDict.mkEmpty 2 (K := String) (V := Nat)).setAll
      [("a", 1), ("b", 2)]).get "a"
        = some (1, { max_len := 2, entries := [("b", 2), ("a", 1)] }) := rfl
  have hd : d1 = { max_len := 2, entries := [("b", 2), ("a", 1)] } := by
    have h4 := hget.symm.trans hc
    simpa using h4
  rw [hd] at hk1 hk2 hkN
  exact ⟨hc, hk1, hk2, hkN⟩

/-- C1: for a synchronous wrapped function, a call whose resolved key is in
the cache returns the stored value without invoking the underlying
function (the threaded state is untouched and the result does not depend
on the function), and a call whose key is absent invokes the function
exactly once, stores its result under that key, and returns it; in the
counting scenario of the spec with `max_len = 2`, the second `f(1)` leaves the
counter unchanged while each distinct-argument miss increments it. -/
theorem c1_memoization {A σ V : Type} (rk : A → String) (f : A → σ → V × σ)
    (c : LRUDict String V) (s : σ) (a : A) :
    (∀ v, odLookup c.entries (rk a) = some v →
        (wrapper_sync rk f c s a).1 = v
        ∧ (wrapper_sync rk f c s a).2.2 = s
        ∧ ∀ g : A → σ → V × σ,
            wrapper_sync rk g c s a = wrapper_sync rk f c s a)
    ∧ (odLookup c.entries (rk a) = none →
        wrapper_sync rk f c s a
          = ((f a s).1, c.set (rk a) (f a s).1, (f a s).2)
        ∧ (1 ≤ c.max_len →
            odLookup (c.set (rk a) (f a s).1).entries (rk a)
              = some (f a s).1))
    ∧ (scenarioStep1.1 = 2 ∧ scenarioStep1.2.2 = 1
        ∧ scenarioStep2.1 = 2 ∧ scenarioStep2.2.2 = 1
        ∧ scenarioStep3.1 = 4 ∧ scenarioStep3.2.2 = 2
        ∧ scenarioStep4.1 = 6 ∧ scenarioStep4.2.2 = 3) := by
  refine ⟨?_, ?_, by decide⟩
  · intro v hv
    have hget : LRUDict.get c (rk a)
        = some (v, ⟨c.max_len, odMoveToEnd c.entries (rk a)⟩) := by
      simp only [LRUDict.get, hv]
    refine ⟨?_, ?_, ?_⟩
    · simp only [wrapper_sync, hget]
    · simp only [wrapper_sync, hget]
    · intro g
      simp only [wrapper_sync, hget]
  · intro hv
    have hget : LRUDict.get c (rk a) = none := by
      simp only [LRUDict.get, hv]
    constructor
    · simp only [wrapper_sync, hget]
    · intro hm
      exact odLookup_set_self c (rk a) (f a s).1 hm

/-- Witness for C1: hit on a one-entry cache, miss on the empty cache. -/
theorem c1_memoization_witness :
    odLookup ({ max_len := 2, entries := [("k", 9)] } :
        LRUDict String Nat).entries "k" = some 9
    ∧ (wrapper_sync (fun _ : Unit => "k") (fun _ s => (7, s + 1))
        { max_len := 2, entries := [("k", 9)] } 0 ()).1 = 9
    ∧ (wrapper_sync (fun _ : Unit => "k") (fun _ s => (7, s + 1))
        { max_len := 2, entries := [("k", 9)] } 0 ()).2.2 = 0
    ∧ odLookup (LRUDict.mkEmpty 2 (K := String) (V := Nat)).entries "k" = none
    ∧ (wrapper_sync (fun _ : Unit => "k") (fun _ s => (7, s + 1))
        (LRUDict.mkEmpty 2) 0 ())
        = (7, (LRUDict.mkEmpty 2).set "k" 7, 1)
    ∧ odLookup ((LRUDict.mkEmpty 2 (K := String) (V := Nat)).set
        "k" 7).entries "k" = some 7 := by
  have h1 := c1_memoization (fun _ : Unit => "k") (fun _ s => (7, s + 1))
    { max_len := 2, entries := [("k", 9)] } 0 ()
  have h2 := c1_memoization (fun _ : Unit => "k") (fun _ s => (7, s + 1))
    (LRUDict.mkEmpty 2) 0 ()
  exact ⟨by decide, (h1.1 9 (by decide)).1, (h1.1 9 (by decide)).2.1,
    by decide, (h2.2.1 (by decide)).1, (h2.2.1 (by decide)).2 (by decide)⟩

/-- C5: `invalidate` with no arguments empties the cache entirely and
returns true, after which every key is a fresh miss; `invalidate` with
arguments resolves the key with `_resolve_key` (the same rules as the call
path, respecting `ignore_kwargs`) and returns true exactly when an entry
with that key was present, removing it, so that an immediate second call
with the same arguments returns false. -/
theorem c5_invalidate {V : Type} (funcId : String) (ik : Bool)
    (c : LRUDict String V) (ar : List String)
    (kw : List (String × String)) :
    (invalidate funcId ik c [] [] = (true, c.clear)
      ∧ (LRUDict.clear c).entries = []
      ∧ ∀ key, odLookup (LRUDict.clear c).entries key = none)
    ∧ (¬(ar = [] ∧ kw = []) →
        ((invalidate funcId ik c ar kw).1 = true
            ↔ odLookup c.entries (resolve_key funcId ik ar kw) ≠ none)
        ∧ odLookup ((invalidate funcId ik c ar kw).2).entries
            (resolve_key funcId ik ar kw) = none
        ∧ (invalidate funcId ik ((invalidate funcId ik c ar kw).2) ar kw).1
            = false) := by
  constructor
  · exact ⟨by simp [invalidate], rfl, fun key => rfl⟩
  · intro hcond
    cases hl : odLookup c.entries (resolve_key funcId ik ar kw) with
    | some w =>
        have hres : invalidate funcId ik c ar kw
            = (true,
               { max_len := c.max_len,
                 entries := odDel c.entries (resolve_key funcId ik ar kw) }) := by
          unfold invalidate
          rw [if_neg hcond]
          simp only [hl]
        have hdel := odLookup_odDel_self c.entries (resolve_key funcId ik ar kw)
        refine ⟨?_, ?_, ?_⟩
        · rw [hres]
          simp [hl]
        · rw [hres]
          exact hdel
        · rw [hres]
          unfold invalidate
          rw [if_neg hcond]
          simp only [hdel]
    | none =>
        have hres : invalidate funcId ik c ar kw = (false, c) := by
          unfold invalidate
          rw [if_neg hcond]
          simp only [hl]
        refine ⟨?_, ?_, ?_⟩
        · rw [hres]
          simp [hl]
        · rw [hres]
          exact hl
        · rw [hres]
          unfold invalidate
          rw [if_neg hcond]
          simp only [hl]

/-- Witness for C5: clearing a one-entry cache, then hit/miss rounds of
single-key invalidation on it. -/
theorem c5_invalidate_witness :
    invalidate "m.f" false
        ({ max_len := 4, entries := [("m.f:1", 10)] } : LRUDict String Nat)
        [] []
      = (true, LRUDict.clear { max_len := 4, entries := [("m.f:1", 10)] })
    ∧ ¬((["1"] : List String) = [] ∧ ([] : List (String × String)) = [])
    ∧ ((invalidate "m.f" false
        ({ max_len := 4, entries := [("m.f:1", 10)] } : LRUDict String Nat)
        ["1"] []).1 = true
          ↔ odLookup
              ({ max_len := 4, entries := [("m.f:1", 10)] } :
                LRUDict String Nat).entries
              (resolve_key "m.f" false ["1"] []) ≠ none)
    ∧ (invalidate "m.f" false
        ((invalidate "m.f" false
          ({ max_len := 4, entries := [("m.f:1", 10)] } : LRUDict String Nat)
          ["1"] []).2) ["1"] []).1 = false := by
  have h := c5_invalidate "m.f" false
    ({ max_len := 4, entries := [("m.f:1", 10)] } : LRUDict String Nat)
    ["1"] []
  exact ⟨h.1.1, by decide, (h.2 (by decide)).1, (h.2 (by decide)).2.2⟩

/-- C6: if on a cache miss the underlying function raises (synchronous
case), or the miss awaitable completes with a failure (asynchronous case),
the error propagates unchanged to the caller and nothing is stored: the
cache is exactly as before the failed call. -/
theorem c6_failure_atomicity {A E V σ : Type} (rk : A → String)
    (f : A → Except E V) (g : A → σ → Except E V × σ)
    (c : LRUDict String V) (a : A) (e : E) (s s2 : σ) :
    (odLookup c.entries (rk a) = none → f a = Except.error e →
        wrapper_sync_exc rk f c a = (Except.error e, c))
    ∧ (odLookup c.entries (rk a) = none →
        wrapper_async rk c a = (Awaitable.prepare_coro a (rk a), c))
    ∧ (g a s = (Except.error e, s2) →
        run_awaitable g (Awaitable.prepare_coro a (rk a)) c s
          = (Except.error e, c, s2)) := by
  refine ⟨?_, ?_, ?_⟩
  · intro h hf
    have hget : LRUDict.get c (rk a) = none := by
      simp only [LRUDict.get, h]
    simp only [wrapper_sync_exc, hget, hf]
  · intro h
    have hget : LRUDict.get c (rk a) = none := by
      simp only [LRUDict.get, h]
    simp only [wrapper_async, hget]
  · intro hg
    simp only [run_awaitable, hg]

/-- Witness for C6: a failing synchronous call and a failing awaited call
on the empty cache leave it empty and surface the error. -/
theorem c6_failure_atomicity_witness :
    odLookup (LRUDict.mkEmpty 2 (K := String) (V := Nat)).entries "k" = none
    ∧ (fun _ : Unit => (Except.error "boom" : Except String Nat)) ()
        = Except.error "boom"
    ∧ wrapper_sync_exc (fun _ : Unit => "k")
        (fun _ => (Except.error "boom" : Except String Nat))
        (LRUDict.mkEmpty 2) ()
        = (Except.error "boom", LRUDict.mkEmpty 2)
    ∧ wrapper_async (fun _ : Unit => "k")
        (LRUDict.mkEmpty 2 (K := String) (V := Nat)) ()
        = (Awaitable.prepare_coro () "k", LRUDict.mkEmpty 2)
    ∧ run_awaitable
        (fun _ : Unit => fun s : Nat => ((Except.error "boom" :
          Except String Nat), s + 1))
        (Awaitable.prepare_coro () "k") (LRUDict.mkEmpty 2) 0
        = (Except.error "boom", LRUDict.mkEmpty 2, 1) := by
  have h := c6_failure_atomicity (fun _ : Unit => "k")
    (fun _ => (Except.error "boom" : Except String Nat))
    (fun _ s => ((Except.error "boom" : Except String Nat), s + 1))
    (LRUDict.mkEmpty 2) () "boom" 0 1
  exact ⟨rfl, rfl, h.1 rfl rfl, h.2.1 rfl, h.2.2 rfl⟩

/-- C7: for an asynchronous wrapped function, a cache hit returns
`_wrap_value` of the cached value — an awaitable that, when driven,
immediately resolves to the cached value with no cache change, no state
change and no dependence on the underlying function — so awaiting call
sites never branch on hit versus miss. -/
theorem c7_async_hit {A E V σ : Type} (rk : A → String)
    (c : LRUDict String V) (a : A) (v : V) (g : A → σ → Except E V × σ)
    (d : LRUDict String V) (s : σ)
    (h : odLookup c.entries (rk a) = some v) :
    (wrapper_async rk c a).1 = Awaitable.wrap_value v
    ∧ run_awaitable g (Awaitable.wrap_value (A := A) v) d s
        = (Except.ok v, d, s) := by
  constructor
  · have hget : LRUDict.get c (rk a)
        = some (v, ⟨c.max_len, odMoveToEnd c.entries (rk a)⟩) := by
      simp only [LRUDict.get, h]
    simp only [wrapper_async, hget]
  · rfl

/-- Witness for C7: a hit on a one-entry cache yields the immediately
resolved awaitable carrying the cached value. -/
theorem c7_async_hit_witness :
    odLookup ({ max_len := 2, entries := [("k", 9)] } :
        LRUDict String Nat).entries "k" = some 9
    ∧ (wrapper_async (fun _ : Unit => "k")
        ({ max_len := 2, entries := [("k", 9)] } : LRUDict String Nat) ()).1
        = Awaitable.wrap_value 9
    ∧ run_awaitable
        (fun _ : Unit => fun s : Nat => ((Except.ok 0 : Except String Nat),
          s + 5))
        (Awaitable.wrap_value 9) (LRUDict.mkEmpty 1) 0
        = (Except.ok 9, LRUDict.mkEmpty 1, 0) := by
  have h := c7_async_hit (fun _ : Unit => "k")
    ({ max_len := 2, entries := [("k", 9)] } : LRUDict String Nat) () 9
    (fun _ s => ((Except.ok 0 : Except String Nat), s + 5))
    (LRUDict.mkEmpty 1) 0 (by decide)
  exact ⟨by decide, h.1, h.2⟩

/-- C8: `invalidate_containing(substring)` removes exactly the entries
whose key contains the string as a literal substring, leaving every other
entry untouched in place with its value; in particular with keys
"mod.fn:1", "mod.fn:2", "mod.fn:10" and substring "1", the first and
third are removed and the second stays. -/
theorem c8_invalidate_containing {V : Type} (c : LRUDict String V)
    (s : String) :
    (invalidate_containing c s).entries
        = c.entries.filter (fun p => !(strContains s p.1))
    ∧ (invalidate_containing c s).max_len = c.max_len
    ∧ (invalidate_containing
          ({ max_len := 3,
             entries := [("mod.fn:1", 1), ("mod.fn:2", 2), ("mod.fn:10", 3)] } :
            LRUDict String Nat) "1").entries = [("mod.fn:2", 2)] :=
  ⟨invalidate_containing_entries c s, rfl, by decide⟩

end LoggerCache
